import Mathlib

/-!
# tui-typing-game: a shallow embedding of `main.go`

The development embeds the per-keystroke state machine (`Game.handleInput`),
the screen layout (`Game.centerText`, `Game.render`, `Game.showResults`) and
the shutdown wiring of `main` as pure functions over an explicit state.

Conventions.
* A Go `string` is its sequence of bytes, `List Byte` with `Byte = Fin 256`.
* Go `int` is 64 bits wide.  The layout arithmetic on the terminal width
  (`centerText`, the cursor column of `render`) is carried out with
  two's-complement wrap-around, `wrapInt64`.  String lengths and the mistake
  counter, which starts at 0 and grows by one per keystroke, are kept as
  integers without wrap-around.
* `time.Time` is a clock reading in nanoseconds; the readings a call takes
  and the value drawn from `rand.Intn` are passed in as an `Env`.
* Runtime panics are explicit: the functions return `Except Fault _`.
* Terminal writes are recorded as a list of structured operations `Out`.
* The two `float64` statistics are read over exact rational arithmetic.
-/

namespace TypingGame

/-- One byte of a Go string. -/
abbrev Byte := Fin 256

/-- The bytes of a string literal (all literals of the program are ASCII, so
a character is one byte). -/
def bytesOf (s : String) : List Byte :=
  s.toList.map (fun c => Fin.ofNat c.toNat)

/-- The list `words` of `main.go`, lines 14-20. -/
def words : List (List Byte) :=
  [ bytesOf "Hello World",
    bytesOf "Go Programming",
    bytesOf "Type this text",
    bytesOf "Practice makes perfect",
    bytesOf "Keep coding" ]

deriving instance DecidableEq for Except

/-- Runtime panics of the Go program that the model makes explicit. -/
inductive Fault where
  | indexOutOfRange
  | closeOfClosedChannel
  deriving DecidableEq, Repr

/-- The struct `Game`, lines 22-31.  `oldState` is the saved terminal mode (an
uninterpreted handle) and `done` records whether the channel is closed. -/
structure Game where
  oldState : Nat
  word : List Byte
  input : List Byte
  startTime : Int
  mistakes : Int
  width : Int
  height : Int
  done : Bool
  deriving DecidableEq, Repr

/-- What one call of `handleInput` reads from its surroundings when it
completes a round: the clock at `time.Since` (line 160), the value of
`rand.Intn(len(words))` (line 167) and the clock at `time.Now` (line 170). -/
structure Env where
  sinceClock : Int
  rnd : Fin words.length
  nowClock : Int
  deriving DecidableEq, Repr

/-- Terminal output, one constructor per escape sequence the program prints. -/
inductive Out where
  /-- Output `"\033[?25l"`. -/
  | hideCursor
  /-- Output `"\033[H\033[2J"`. -/
  | clearScreen
  /-- Output `"\033[%d;1H\033[K"` of `clearLine`. -/
  | clearLine (row : Int)
  /-- Output `"\033[%d;%dH%s\033[K"` of `centerText`: move to `row;col`, write
  the text, erase the rest of the line. -/
  | printAt (row col : Int) (text : List Byte)
  /-- Output `"\033[5;%dH"`: move the cursor to `row;col`. -/
  | moveTo (row col : Int)
  deriving DecidableEq, Repr

/-- The statistics handed to `showResults`. -/
structure Stats where
  duration : Int
  accuracy : ℚ
  wpm : ℚ
  deriving DecidableEq

/-- Go's `len` of a string, as an `int`. -/
def len (s : List Byte) : Int := (s.length : Int)

/-- Go's conversion `string(b)` of a byte: the UTF-8 encoding of the code
point `b`, one byte below 128 and two bytes from 128 on. -/
def stringOfByte (b : Byte) : List Byte :=
  if b.val < 128 then [b]
  else [Fin.ofNat (192 + b.val / 64), Fin.ofNat (128 + b.val % 64)]

/-- Go's `s[i]` on a string: a panic when `i` is out of range. -/
def index (s : List Byte) (i : Int) : Except Fault Byte :=
  if i < 0 then .error .indexOutOfRange
  else
    match s.get? i.toNat with
    | some b => .ok b
    | none => .error .indexOutOfRange

/-- Go's `close(ch)`: a panic when the channel is already closed. -/
def closeChan (closed : Bool) : Except Fault Bool :=
  if closed then .error .closeOfClosedChannel else .ok true

/-- Two's-complement wrap-around of a 64-bit `int`: the value in
`[-2^63, 2^63)` congruent to `x` modulo `2^64`. -/
def wrapInt64 (x : Int) : Int :=
  (x + 9223372036854775808) % 18446744073709551616 - 9223372036854775808

/-- The padding computed by `centerText`, lines 68-71: the subtraction
`g.width - len(text)` wraps at 64 bits, Go's `/` truncates towards zero (a
quotient by 2 cannot overflow), and a negative padding is replaced by 0. -/
def centerPadding (width : Int) (text : List Byte) : Int :=
  let padding := Int.tdiv (wrapInt64 (width - len text)) 2
  if padding < 0 then 0 else padding

/-- The method `centerText`, lines 67-74: the text is printed at column
`padding+1`, a 64-bit sum. -/
def centerText (g : Game) (text : List Byte) (row : Int) : List Out :=
  [Out.printAt row (wrapInt64 (centerPadding g.width text + 1)) text]

/-- The method `clearLine`, lines 76-79. -/
def clearLine (_g : Game) (row : Int) : List Out :=
  [Out.clearLine row]

/-- The loop `for i := 1; i <= 7; i++ { g.clearLine(i) }`. -/
def clearLines (g : Game) : List Out :=
  (List.range 7).flatMap (fun i => clearLine g ((i : Int) + 1))

/-- The column of the final cursor move of `render`, line 108:
`(g.width-len("Your input: ")+len(g.input))/2+1`, each sum and difference a
64-bit operation. -/
def renderCursorCol (g : Game) : Int :=
  wrapInt64
    (Int.tdiv
      (wrapInt64 (wrapInt64 (g.width - len (bytesOf "Your input: ")) + len g.input)) 2
      + 1)

/-- The method `render`, lines 81-110. -/
def render (g : Game) : List Out :=
  [Out.hideCursor, Out.clearScreen]
    ++ clearLines g
    ++ centerText g (bytesOf "=== Typing Game ===") 1
    ++ centerText g (bytesOf "Type this: " ++ g.word) 3
    ++ centerText g (bytesOf "Your input: " ++ g.input) 5
    ++ centerText g (bytesOf "Mistakes: " ++ bytesOf (toString g.mistakes)) 7
    ++ [Out.moveTo 5 (renderCursorCol g)]

/-- The accuracy of line 161, `100.0 * (float64(n - m) / float64(n))`, over
the rationals. -/
def accuracy (n m : Int) : ℚ :=
  100 * (((n - m : Int) : ℚ) / (n : ℚ))

/-- The speed of line 162, `float64(n) / duration.Minutes() / 5.0`, over the
rationals, the duration in nanoseconds.  (For a zero duration Go's float
division yields an infinity; no statement below depends on that case.) -/
def wpm (n duration : Int) : ℚ :=
  (n : ℚ) / ((duration : ℚ) / 60000000000) / 5

/-- One entry of the trace of a `handleInput` call: the call of `showResults`
with its arguments. -/
inductive Event where
  | showResults (s : Stats)
  deriving DecidableEq

/-- Lines 151-156: append `string(b)` to the input and count a mistake when
the last byte of the input differs from the byte of the word at the same
index. -/
def typeByte (g : Game) (b : Byte) : Except Fault Game := do
  let input := g.input ++ stringOfByte b
  let x ← index input (len input - 1)
  let y ← index g.word (len input - 1)
  let mistakes := if x ≠ y then g.mistakes + 1 else g.mistakes
  pure { g with input := input, mistakes := mistakes }

/-- Lines 159-171: when the word is complete, compute the statistics, call
`showResults` and reset the round. -/
def finishRound (e : Env) (g : Game) : Game × List Event :=
  if len g.input = len g.word then
    let duration := e.sinceClock - g.startTime
    let s : Stats :=
      { duration := duration
        accuracy := accuracy (len g.word) g.mistakes
        wpm := wpm (len g.word) duration }
    ({ g with
        word := words.get e.rnd
        input := []
        mistakes := 0
        startTime := e.nowClock },
     [Event.showResults s])
  else (g, [])

/-- The method `handleInput`, lines 137-175: the new state, the returned
boolean and the calls of `showResults` it made. -/
def handleInput (e : Env) (g : Game) (b : Byte) :
    Except Fault (Game × Bool × List Event) :=
  if b = 3 then do
    let d ← closeChan g.done
    pure ({ g with done := d }, false, [])
  else if b = 127 then
    if len g.input > 0 then
      pure ({ g with input := g.input.take (g.input.length - 1) }, true, [])
    else
      pure (g, true, [])
  else if len g.input < len g.word then do
    let g1 ← typeByte g b
    let (g2, evs) := finishRound e g1
    pure (g2, true, evs)
  else
    pure (g, true, [])

/-- A round as `newGame` and the reset of `handleInput` leave it: the given
word, empty input, no mistakes, `done` open. -/
def freshRound (word : List Byte) (start width height : Int) : Game :=
  { oldState := 0, word := word, input := [], startTime := start,
    mistakes := 0, width := width, height := height, done := false }

/-- Successive calls of `handleInput`, as the loop of `main` makes them: the
state is threaded, the traces are concatenated, the run ends at the first
panic and at the first call that returns `false`. -/
def feed (g : Game) : List (Env × Byte) → Except Fault (Game × Bool × List Event)
  | [] => .ok (g, true, [])
  | (e, b) :: ks =>
    match handleInput e g b with
    | .error f => .error f
    | .ok (g1, false, evs) => .ok (g1, false, evs)
    | .ok (g1, true, evs) =>
      match feed g1 ks with
      | .error f => .error f
      | .ok (g2, r, evs2) => .ok (g2, r, evs ++ evs2)

/-- The output of `showResults`, lines 112-135, up to the three formatted
numbers, whose text is kept symbolic (`fmt.Sprintf` of a `float64`). -/
def showResults (g : Game) (timeText accuracyText speedText : List Byte) : List Out :=
  [Out.clearScreen]
    ++ clearLines g
    ++ centerText g (bytesOf "=== Results ===") 1
    ++ centerText g timeText 3
    ++ centerText g accuracyText 4
    ++ centerText g speedText 5
    ++ centerText g (bytesOf "Press any key to continue, Ctrl+C to exit...") 7

/-- Number of positions at which two byte strings differ. -/
def hamming (a b : List Byte) : Nat :=
  (List.zip a b).countP (fun p => decide (p.1 ≠ p.2))

/-- The keystrokes of an ASCII text, all read under the same surroundings. -/
def keysOf (e : Env) (text : String) : List (Env × Byte) :=
  (bytesOf text).map (fun b => (e, b))

/-- Sample surroundings: the round took five seconds and the first word is
drawn next. -/
def sampleEnv : Env :=
  { sinceClock := 5000000000, rnd := ⟨0, by decide⟩, nowClock := 5000000001 }

/-- A fresh round on the word "cat" on an 80 by 24 terminal. -/
def catRound : Game := freshRound (bytesOf "cat") 0 80 24

/-- The round on "cat" after 'c' and 'a' have been typed. -/
def catRoundCa : Game := { catRound with input := bytesOf "ca" }

/-- The program of `main`, lines 177-216, between two blocking reads: the
game, whether the goroutine of lines 192-195 has already run its `close`, and
whether `main` has returned. -/
structure Sys where
  game : Game
  listenerFired : Bool
  exited : Bool
  deriving DecidableEq, Repr

/-- What can happen while the loop of `main` is blocked in `os.Stdin.Read`: a
signal reaches the goroutine, the read returns a byte, or the read fails. -/
inductive Ev where
  | signal
  | key (e : Env) (b : Byte)
  | readError
  deriving DecidableEq, Repr

/-- The state in which `main` first blocks in the read: the game of `newGame`,
the goroutine waiting on `sigChan`. -/
def initSys (g : Game) : Sys :=
  { game := g, listenerFired := false, exited := false }

/-- One event of the program.  `signal` is line 194, run once by the
goroutine.  `key` is lines 205-213 followed by the `select` of the next
iteration (lines 199-201), which returns when `done` is closed and otherwise
renders and blocks in the read again.  After `main` has returned nothing more
happens. -/
def step (s : Sys) : Ev → Except Fault Sys
  | .signal =>
    if s.exited || s.listenerFired then .ok s
    else
      match closeChan s.game.done with
      | .error f => .error f
      | .ok d => .ok { s with game := { s.game with done := d }, listenerFired := true }
  | .readError =>
    .ok { s with exited := true }
  | .key e b =>
    if s.exited then .ok s
    else
      match handleInput e s.game b with
      | .error f => .error f
      | .ok (g, continues, _) =>
        .ok { s with game := g, exited := !continues || g.done }

/-- A sequence of events, ending at the first panic. -/
def runSys (s : Sys) : List Ev → Except Fault Sys
  | [] => .ok s
  | ev :: evs =>
    match step s ev with
    | .error f => .error f
    | .ok s1 => runSys s1 evs

/-! ## Backspace -/

/-- C3: `handleInput(127)` returns true, makes no call of `showResults`, and
changes nothing but `input`, which loses its last byte; on an empty input the
whole state is unchanged.  On the word "ab", typing 'x' and then backspace
leaves the input empty with the mistake count still 1. -/
theorem backspace_frame (e : Env) (g : Game) :
    handleInput e g 127 = .ok ({ g with input := g.input.dropLast }, true, [])
    ∧ ({ g with input := g.input.dropLast } : Game).input.length = g.input.length - 1
    ∧ handleInput e { g with input := [] } 127 = .ok ({ g with input := [] }, true, [])
    ∧ feed (freshRound (bytesOf "ab") 0 80 24) [(e, 120)]
        = .ok ({ freshRound (bytesOf "ab") 0 80 24 with
                  input := bytesOf "x", mistakes := 1 }, true, [])
    ∧ feed (freshRound (bytesOf "ab") 0 80 24) [(e, 120), (e, 127)]
        = .ok ({ freshRound (bytesOf "ab") 0 80 24 with
                  input := [], mistakes := 1 }, true, []) := by
  refine ⟨?_, by simp, rfl, rfl, rfl⟩
  unfold handleInput
  rw [if_neg (by decide), if_pos rfl]
  by_cases h : len g.input > 0
  · rw [if_pos h, List.dropLast_eq_take]
    rfl
  · rw [if_neg h]
    have h0 : g.input = [] := by
      cases hi : g.input with
      | nil => rfl
      | cons x xs =>
        exfalso
        apply h
        simp [len, hi]
    rw [h0]
    cases g
    simp_all [pure, Except.pure]

/-! ## Centering -/

/-- Truncating division by two followed by the clamp at zero is the clamped
floor. -/
theorem clamp_tdiv_two (d : Int) :
    (if Int.tdiv d 2 < 0 then 0 else Int.tdiv d 2) = max 0 (d / 2) := by
  rcases Int.lt_or_le d 0 with h | h
  · have h1 : Int.tdiv d 2 = -((-d) / 2) := by
      rw [← Int.tdiv_eq_ediv (by omega) (by decide), Int.neg_tdiv, neg_neg]
    have h2 : d / 2 < 0 := by omega
    rcases Int.lt_or_le (Int.tdiv d 2) 0 with h3 | h3
    · rw [if_pos h3]; omega
    · rw [if_neg (by omega)]; omega
  · have h1 : Int.tdiv d 2 = d / 2 := Int.tdiv_eq_ediv h (by decide)
    rw [h1]
    have h2 : 0 ≤ d / 2 := by omega
    rw [if_neg (by omega)]
    omega

/-- A value inside the 64-bit range is left alone by the wrap-around. -/
theorem wrapInt64_eq (x : Int) (hlo : -9223372036854775808 ≤ x)
    (hhi : x < 9223372036854775808) : wrapInt64 x = x := by
  unfold wrapInt64
  omega

/-- The wrap-around lands inside the 64-bit range. -/
theorem wrapInt64_range (x : Int) :
    -9223372036854775808 ≤ wrapInt64 x ∧ wrapInt64 x < 9223372036854775808 := by
  unfold wrapInt64
  omega

/-- The padding is never negative and never above `2^62`, so `padding+1`
does not overflow. -/
theorem centerPadding_bounds (width : Int) (text : List Byte) :
    0 ≤ centerPadding width text ∧ centerPadding width text < 4611686018427387904 := by
  have hr := wrapInt64_range (width - len text)
  unfold centerPadding
  simp only
  rw [clamp_tdiv_two]
  omega

/-- The column `padding+1` of `centerText` is computed without overflow. -/
theorem centerText_eq (g : Game) (text : List Byte) (row : Int) :
    centerText g text row = [Out.printAt row (centerPadding g.width text + 1) text] := by
  have hb := centerPadding_bounds g.width text
  unfold centerText
  rw [wrapInt64_eq _ (by omega) (by omega)]

/-- The floor of half an integer, over the rationals, is the integer
quotient. -/
theorem floor_half (d : Int) : ⌊((d : Int) : ℚ) / 2⌋ = d / 2 := by
  have := Rat.floor_intCast_div_natCast d 2
  simpa using this

/-- C9, the claim as stated fails: the width `-2^63` is a value of Go's `int`
and the one-byte text "a" is longer than it, so the claim puts the text at
column `max(0, floor((width - 1) / 2)) + 1 = 1`; the subtraction
`width - len(text)` wraps to `2^63 - 1`, the padding is `2^62 - 1` and
`centerText` prints at column `2^62 = 4611686018427387904`. -/
theorem centerText_column_wraps_at_min_int :
    centerText (freshRound (bytesOf "Keep coding") 0 (-9223372036854775808) 24)
        (bytesOf "a") 1
      = [Out.printAt 1 4611686018427387904 (bytesOf "a")]
    ∧ (freshRound (bytesOf "Keep coding") 0 (-9223372036854775808) 24).width
        < len (bytesOf "a")
    ∧ max 0 ⌊(((freshRound (bytesOf "Keep coding") 0 (-9223372036854775808) 24).width
          - len (bytesOf "a") : Int) : ℚ) / 2⌋ + 1 = 1
    ∧ centerText (freshRound (bytesOf "Keep coding") 0 (-9223372036854775808) 24)
        (bytesOf "a") 1
      ≠ [Out.printAt 1
          (max 0 ⌊(((freshRound (bytesOf "Keep coding") 0 (-9223372036854775808) 24).width
            - len (bytesOf "a") : Int) : ℚ) / 2⌋ + 1) (bytesOf "a")] := by
  have hval : centerText (freshRound (bytesOf "Keep coding") 0 (-9223372036854775808) 24)
        (bytesOf "a") 1
      = [Out.printAt 1 4611686018427387904 (bytesOf "a")] := by
    rw [centerText_eq]
    decide
  have hclaim : max 0 ⌊(((freshRound (bytesOf "Keep coding") 0
        (-9223372036854775808) 24).width - len (bytesOf "a") : Int) : ℚ) / 2⌋ + 1
      = 1 := by
    rw [floor_half]
    decide
  refine ⟨hval, by decide, hclaim, ?_⟩
  rw [hval, hclaim]
  decide

/-- C9, amended: for every width of Go's `int` and every text for which the
difference `width - len(text)` does not fall below `-2^63` (every width from
0 up, and every negative width down to `-2^63 + len(text)`), `centerText`
writes the whole text at row `row`, starting at column `padding + 1` with
`padding = max(0, floor((width - len(text)) / 2))`; a text longer than the
width starts at column 1. -/
theorem centerText_column (g : Game) (text : List Byte) (row : Int)
    (hlo : -9223372036854775808 ≤ g.width - len text)
    (hhi : g.width < 9223372036854775808) :
    centerText g text row
      = [Out.printAt row (max 0 ⌊((g.width - len text : Int) : ℚ) / 2⌋ + 1) text]
    ∧ centerText g text row
      = [Out.printAt row
          (if g.width < len text then 1
           else ⌊((g.width - len text : Int) : ℚ) / 2⌋ + 1) text] := by
  have hlen : 0 ≤ len text := by simp [len]
  have hfloor := floor_half (g.width - len text)
  have hpad : centerPadding g.width text = max 0 ((g.width - len text) / 2) := by
    unfold centerPadding
    simp only
    rw [wrapInt64_eq _ hlo (by omega)]
    exact clamp_tdiv_two _
  refine ⟨?_, ?_⟩
  · rw [centerText_eq, hpad, hfloor]
  · rw [centerText_eq, hpad, hfloor]
    by_cases h : g.width < len text
    · rw [if_pos h]
      have : (g.width - len text) / 2 < 0 := by omega
      rw [max_eq_left (by omega)]
      rfl
    · rw [if_neg h]
      have : 0 ≤ (g.width - len text) / 2 := by omega
      rw [max_eq_right this]

/-- The title, 19 bytes, on a terminal 5 columns wide: the difference is
negative, the padding is clamped to 0 and the title starts at column 1. -/
theorem centerText_column_witness :
    (-9223372036854775808 : Int)
        ≤ (freshRound (bytesOf "Keep coding") 0 5 24).width
            - len (bytesOf "=== Typing Game ===")
    ∧ (freshRound (bytesOf "Keep coding") 0 5 24).width < 9223372036854775808
    ∧ centerText (freshRound (bytesOf "Keep coding") 0 5 24)
        (bytesOf "=== Typing Game ===") 1
      = [Out.printAt 1 1 (bytesOf "=== Typing Game ===")]
    ∧ (centerText (freshRound (bytesOf "Keep coding") 0 5 24)
          (bytesOf "=== Typing Game ===") 1
        = [Out.printAt 1
            (max 0 ⌊(((freshRound (bytesOf "Keep coding") 0 5 24).width
              - len (bytesOf "=== Typing Game ===") : Int) : ℚ) / 2⌋ + 1)
            (bytesOf "=== Typing Game ===")]
      ∧ centerText (freshRound (bytesOf "Keep coding") 0 5 24)
          (bytesOf "=== Typing Game ===") 1
        = [Out.printAt 1
            (if (freshRound (bytesOf "Keep coding") 0 5 24).width
                  < len (bytesOf "=== Typing Game ===") then 1
             else ⌊(((freshRound (bytesOf "Keep coding") 0 5 24).width
               - len (bytesOf "=== Typing Game ===") : Int) : ℚ) / 2⌋ + 1)
            (bytesOf "=== Typing Game ===")]) :=
  ⟨by decide, by decide, by decide,
    centerText_column (freshRound (bytesOf "Keep coding") 0 5 24)
      (bytesOf "=== Typing Game ===") 1 (by decide) (by decide)⟩

/-! ## The cursor of `render` -/

/-- The last thing `render` writes is the cursor move of line 108. -/
theorem render_getLast (g : Game) :
    (render g).getLast? = some (Out.moveTo 5 (renderCursorCol g)) := by
  unfold render
  exact List.getLast?_concat _

/-- The input line "Your input: " followed by the input starts at column
`padding + 1`, so the column after its last character is
`padding + 12 + len(input) + 1`; on a terminal of non-negative width below
`2^62`, with an input shorter than `2^62`, the cursor move of line 108 never
goes there. -/
theorem render_cursor_never_after_input (g : Game)
    (hw0 : 0 ≤ g.width) (hw1 : g.width < 4611686018427387904)
    (hin : len g.input < 4611686018427387904) :
    renderCursorCol g
      ≠ centerPadding g.width (bytesOf "Your input: " ++ g.input)
          + len (bytesOf "Your input: ") + len g.input + 1 := by
  have h12 : len (bytesOf "Your input: ") = 12 := rfl
  have happ : len (bytesOf "Your input: " ++ g.input) = 12 + len g.input := by
    simp [len, List.length_append]; rfl
  have hk : 0 ≤ len g.input := by simp [len]
  unfold renderCursorCol centerPadding
  simp only
  rw [h12, happ, wrapInt64_eq (g.width - 12) (by omega) (by omega),
    wrapInt64_eq (g.width - 12 + len g.input) (by omega) (by omega),
    wrapInt64_eq (g.width - (12 + len g.input)) (by omega) (by omega),
    clamp_tdiv_two]
  rcases Int.lt_or_le (g.width - 12 + len g.input) 0 with h | h
  · have h1 : Int.tdiv (g.width - 12 + len g.input) 2
        = -((-(g.width - 12 + len g.input)) / 2) := by
      rw [← Int.tdiv_eq_ediv (by omega) (by decide), Int.neg_tdiv, neg_neg]
    rw [h1, wrapInt64_eq _ (by omega) (by omega)]
    omega
  · rw [Int.tdiv_eq_ediv h (by decide), wrapInt64_eq _ (by omega) (by omega)]
    omega

/-- C8: on an 80-column terminal `render` writes the input line of a fresh
round at columns 35 to 46 and then puts the cursor at column 35, not at
column 47 after the line; with the input "Ke" the line occupies columns 34 to
47 and the cursor goes to column 36, not 48. -/
theorem render_cursor_misplaced :
    centerText (freshRound (bytesOf "Keep coding") 0 80 24)
        (bytesOf "Your input: " ++ []) 5
      = [Out.printAt 5 35 (bytesOf "Your input: ")]
    ∧ (render (freshRound (bytesOf "Keep coding") 0 80 24)).getLast?
      = some (Out.moveTo 5 35)
    ∧ centerPadding 80 (bytesOf "Your input: " ++ [])
        + len (bytesOf "Your input: ") + len [] + 1 = 47
    ∧ centerText { freshRound (bytesOf "Keep coding") 0 80 24 with input := bytesOf "Ke" }
        (bytesOf "Your input: " ++ bytesOf "Ke") 5
      = [Out.printAt 5 34 (bytesOf "Your input: Ke")]
    ∧ (render { freshRound (bytesOf "Keep coding") 0 80 24 with
          input := bytesOf "Ke" }).getLast?
      = some (Out.moveTo 5 36)
    ∧ centerPadding 80 (bytesOf "Your input: " ++ bytesOf "Ke")
        + len (bytesOf "Your input: ") + len (bytesOf "Ke") + 1 = 48 := by
  refine ⟨rfl, ?_, rfl, rfl, ?_, rfl⟩
  · rw [render_getLast]; rfl
  · rw [render_getLast]; rfl

/-! ## Panics of the dispatch -/

/-- C1: from a fresh round on "Keep coding", ten ASCII keystrokes lead to an
input of ten bytes; the byte 195 then makes `string(b)` two bytes long, the
input twelve bytes long, and the index 11 into the eleven-byte word panics. -/
theorem handleInput_panics_on_high_byte (e : Env) :
    feed (freshRound (bytesOf "Keep coding") 0 80 24) (keysOf e "Keep codin")
      = .ok ({ freshRound (bytesOf "Keep coding") 0 80 24 with
                input := bytesOf "Keep codin" }, true, [])
    ∧ stringOfByte 195 = [195, 131]
    ∧ handleInput e { freshRound (bytesOf "Keep coding") 0 80 24 with
          input := bytesOf "Keep codin" } 195
      = .error .indexOutOfRange
    ∧ feed (freshRound (bytesOf "Keep coding") 0 80 24)
        (keysOf e "Keep codin" ++ [(e, 195)])
      = .error .indexOutOfRange := by
  refine ⟨rfl, rfl, rfl, rfl⟩

/-- C7: `handleInput(3)` on a state whose `done` is already closed panics, and
the program reaches that state: a signal closes `done` while `main` is blocked
in the read, and the byte 3 read next closes it a second time. -/
theorem double_close_after_signal (e : Env) (g : Game) :
    handleInput e { g with done := true } 3 = .error .closeOfClosedChannel
    ∧ runSys (initSys (freshRound (bytesOf "Keep coding") 0 80 24)) [Ev.signal]
      = .ok { game := { freshRound (bytesOf "Keep coding") 0 80 24 with done := true },
              listenerFired := true, exited := false }
    ∧ runSys (initSys (freshRound (bytesOf "Keep coding") 0 80 24))
        [Ev.signal, Ev.key e 3]
      = .error .closeOfClosedChannel := by
  refine ⟨rfl, rfl, rfl⟩

/-! ## The key after the results -/

/-- C5: the call that completes "Keep coding" shows the results and starts a
new round; the byte 'x' passed to the next call is not ignored: it becomes
the first byte of the new input and is counted as a mistake. -/
theorem key_after_results_is_typed (e1 e2 : Env) :
    handleInput e1 { freshRound (bytesOf "Keep coding") 0 80 24 with
        input := bytesOf "Keep codin" } 103
      = .ok (freshRound (words.get e1.rnd) e1.nowClock 80 24, true,
          [Event.showResults
            { duration := e1.sinceClock - 0
              accuracy := accuracy 11 0
              wpm := wpm 11 (e1.sinceClock - 0) }])
    ∧ handleInput e2 (freshRound (words.get e1.rnd) e1.nowClock 80 24) 120
      = .ok ({ freshRound (words.get e1.rnd) e1.nowClock 80 24 with
                input := bytesOf "x", mistakes := 1 }, true, []) := by
  refine ⟨rfl, ?_⟩
  obtain ⟨s, r, n⟩ := e1
  fin_cases r <;> rfl

/-! ## Accuracy below zero -/

/-- The candidate of the claim: on the word "ab" the keys
'x', backspace, 'x', backspace, 'x', 'x' complete the round with four
mistakes and accuracy -100. -/
theorem accuracy_negative_ab (e : Env) :
    feed (freshRound (bytesOf "ab") 0 80 24)
        [(e, 120), (e, 127), (e, 120), (e, 127), (e, 120)]
      = .ok ({ freshRound (bytesOf "ab") 0 80 24 with
                input := bytesOf "x", mistakes := 3 }, true, [])
    ∧ typeByte { freshRound (bytesOf "ab") 0 80 24 with
          input := bytesOf "x", mistakes := 3 } 120
      = .ok { freshRound (bytesOf "ab") 0 80 24 with
                input := bytesOf "xx", mistakes := 4 }
    ∧ feed (freshRound (bytesOf "ab") 0 80 24)
        [(e, 120), (e, 127), (e, 120), (e, 127), (e, 120), (e, 120)]
      = .ok (freshRound (words.get e.rnd) e.nowClock 80 24, true,
          [Event.showResults
            { duration := e.sinceClock - 0
              accuracy := accuracy 2 4
              wpm := wpm 2 (e.sinceClock - 0) }])
    ∧ accuracy 2 4 = -100 := by
  refine ⟨rfl, rfl, rfl, ?_⟩
  norm_num [accuracy]

/-- C10: for some word of `words` and some sequence of ASCII characters and
backspaces fed to `handleInput` from a fresh round, the round completes with
more mistakes than the word has bytes, and the accuracy passed to
`showResults` is below zero.  The word is "Keep coding", the keys are
'x', backspace, 'x', backspace and eleven times 'x': thirteen mistakes. -/
theorem accuracy_can_be_negative (e : Env) :
    ∃ (w : List Byte) (ks : List (Env × Byte)) (g1 g2 g3 : Game) (b : Byte) (s : Stats),
      w ∈ words
      ∧ (∀ k ∈ ks ++ [(e, b)], k.2.val < 128 ∧ k.2 ≠ 3)
      ∧ feed (freshRound w 0 80 24) ks = .ok (g1, true, [])
      ∧ typeByte g1 b = .ok g2
      ∧ len g2.input = len w
      ∧ len w < g2.mistakes
      ∧ feed (freshRound w 0 80 24) (ks ++ [(e, b)]) = .ok (g3, true, [Event.showResults s])
      ∧ s.accuracy = accuracy (len w) g2.mistakes
      ∧ s.accuracy < 0 := by
  refine ⟨bytesOf "Keep coding",
    [(e, 120), (e, 127), (e, 120), (e, 127)] ++ keysOf e "xxxxxxxxxx",
    { freshRound (bytesOf "Keep coding") 0 80 24 with
        input := bytesOf "xxxxxxxxxx", mistakes := 12 },
    { freshRound (bytesOf "Keep coding") 0 80 24 with
        input := bytesOf "xxxxxxxxxxx", mistakes := 13 },
    freshRound (words.get e.rnd) e.nowClock 80 24,
    120,
    { duration := e.sinceClock - 0
      accuracy := accuracy 11 13
      wpm := wpm 11 (e.sinceClock - 0) },
    by decide, ?_, ?_, ?_, ?_, ?_, ?_, ?_, ?_⟩
  · intro k hk
    simp [keysOf, bytesOf] at hk
    rcases hk with h | h | h | h | h | h <;> subst h <;> dsimp only <;> decide
  · rfl
  · rfl
  · rfl
  · decide
  · rfl
  · rfl
  · norm_num [accuracy]

/-! ## Typing one ASCII byte -/

/-- An ASCII byte is converted to a one-byte string. -/
theorem stringOfByte_ascii (b : Byte) (hb : b.val < 128) : stringOfByte b = [b] := by
  simp [stringOfByte, hb]

/-- Indexing inside the string succeeds. -/
theorem index_of_get? (s : List Byte) (i : Nat) (y : Byte) (h : s.get? i = some y) :
    index s (i : Int) = .ok y := by
  unfold index
  rw [if_neg (by omega), Int.toNat_ofNat, h]

/-- Lines 151-156 for an ASCII byte typed at a position inside the word: the
byte is appended and compared with the byte `y` of the word at that
position. -/
theorem typeByte_ascii (g : Game) (b y : Byte) (hb : b.val < 128)
    (hy : g.word.get? g.input.length = some y) :
    typeByte g b
      = .ok { g with input := g.input ++ [b],
                     mistakes := if b ≠ y then g.mistakes + 1 else g.mistakes } := by
  unfold typeByte
  rw [stringOfByte_ascii b hb]
  have hl : len (g.input ++ [b]) - 1 = (g.input.length : Int) := by
    simp [len]
  have hx : index (g.input ++ [b]) (g.input.length : Int) = .ok b :=
    index_of_get? _ _ _ (by simp)
  have hw : index g.word (g.input.length : Int) = .ok y := index_of_get? _ _ _ hy
  simp only [hl, hx, hw]
  rfl

/-- The byte of the word under the cursor exists while the input is shorter
than the word. -/
theorem word_get?_of_lt (g : Game) (h : g.input.length < g.word.length) :
    ∃ y, g.word.get? g.input.length = some y
      ∧ g.word.drop g.input.length = y :: g.word.drop (g.input.length + 1) := by
  refine ⟨g.word.get ⟨g.input.length, h⟩, ?_, ?_⟩
  · simp [List.get?_eq_get h]
  · rw [List.drop_eq_getElem_cons h]
    rfl

/-- Counting the differing positions, one position at a time. -/
theorem hamming_cons (x y : Byte) (a b : List Byte) :
    hamming (x :: a) (y :: b) = (if x ≠ y then 1 else 0) + hamming a b := by
  unfold hamming
  by_cases h : x = y
  · simp [h]
  · simp [h, List.countP_cons]
    omega

/-- The dispatch of an ASCII byte other than 3 and 127 before the last
position of the word: the byte is typed and no results are shown. -/
theorem handleInput_ascii_mid (e : Env) (g : Game) (b y : Byte)
    (hb : b.val < 128) (h3 : b ≠ 3) (h127 : b ≠ 127)
    (hlt : g.input.length + 1 < g.word.length)
    (hy : g.word.get? g.input.length = some y) :
    handleInput e g b
      = .ok ({ g with input := g.input ++ [b],
                      mistakes := if b ≠ y then g.mistakes + 1 else g.mistakes },
             true, []) := by
  unfold handleInput
  rw [if_neg h3, if_neg h127, if_pos (by simp [len]; omega), typeByte_ascii g b y hb hy]
  have hne : ¬ len (g.input ++ [b]) = len g.word := by
    simp [len]; omega
  simp [finishRound, hne, bind, Except.bind, pure, Except.pure]

/-- The dispatch of an ASCII byte other than 3 and 127 at the last position of
the word: the byte is typed, the results are shown once with the accuracy of
the mistake count reached, and the round is reset. -/
theorem handleInput_ascii_last (e : Env) (g : Game) (b y : Byte)
    (hb : b.val < 128) (h3 : b ≠ 3) (h127 : b ≠ 127)
    (hlast : g.input.length + 1 = g.word.length)
    (hy : g.word.get? g.input.length = some y) :
    handleInput e g b
      = .ok ({ g with word := words.get e.rnd, input := [], mistakes := 0,
                      startTime := e.nowClock },
             true,
             [Event.showResults
               { duration := e.sinceClock - g.startTime
                 accuracy := accuracy (len g.word)
                   (if b ≠ y then g.mistakes + 1 else g.mistakes)
                 wpm := wpm (len g.word) (e.sinceClock - g.startTime) }]) := by
  unfold handleInput
  rw [if_neg h3, if_neg h127, if_pos (by simp [len]; omega), typeByte_ascii g b y hb hy]
  have heq : len (g.input ++ [b]) = len g.word := by
    simp [len]; omega
  simp [finishRound, heq, bind, Except.bind, pure, Except.pure]

/-! ## Completion of a round -/

/-- C4: in a state whose input is one byte short of the word, an ASCII byte
other than 3 and 127 makes `handleInput` call `showResults` exactly once and
return true, and leaves a new round: the word is an element of `words`, the
input is empty, the mistake count is 0; width, height and `done` are
unchanged. -/
theorem round_reset_on_completion (e : Env) (g : Game) (b : Byte)
    (hlen : len g.input = len g.word - 1)
    (hb : b.val < 128) (h3 : b ≠ 3) (h127 : b ≠ 127) :
    ∃ (g1 : Game) (s : Stats),
      handleInput e g b = .ok (g1, true, [Event.showResults s])
      ∧ g1.input = [] ∧ g1.mistakes = 0 ∧ g1.word ∈ words
      ∧ g1.width = g.width ∧ g1.height = g.height ∧ g1.done = g.done
      ∧ g1 = { g with word := words.get e.rnd, input := [], mistakes := 0,
                      startTime := e.nowClock } := by
  have hlast : g.input.length + 1 = g.word.length := by
    simp only [len] at hlen
    omega
  obtain ⟨y, hy, -⟩ := word_get?_of_lt g (by omega)
  refine ⟨_, _, handleInput_ascii_last e g b y hb h3 h127 hlast hy, rfl, rfl, ?_,
    rfl, rfl, rfl, rfl⟩
  exact List.get_mem _ _ _

/-- C6: whenever a call of `handleInput` shows results, the byte was typed
into a word of length `n > 0`, completing it with mistake count `m`, and the
accuracy passed to `showResults` is `100 * (n - m) / n` over the rationals:
100 when `m = 0` and 0 when `m = n`. -/
theorem accuracy_at_completion (e : Env) (g g2 : Game) (b : Byte) (r : Bool)
    (evs : List Event) (s : Stats)
    (h : handleInput e g b = .ok (g2, r, evs))
    (hs : Event.showResults s ∈ evs) :
    ∃ g1 : Game,
      typeByte g b = .ok g1
      ∧ len g1.input = len g.word
      ∧ 0 < len g.word
      ∧ s.accuracy = 100 * ((len g.word - g1.mistakes : Int) : ℚ) / ((len g.word : Int) : ℚ)
      ∧ (g1.mistakes = 0 → s.accuracy = 100)
      ∧ (g1.mistakes = len g.word → s.accuracy = 0) := by
  unfold handleInput at h
  by_cases h3 : b = 3
  · rw [if_pos h3] at h
    cases hc : closeChan g.done with
    | error f => rw [hc] at h; cases h
    | ok d =>
      rw [hc] at h
      simp only [bind, Except.bind, pure, Except.pure, Except.ok.injEq, Prod.mk.injEq] at h
      obtain ⟨-, -, rfl⟩ := h
      cases hs
  · rw [if_neg h3] at h
    by_cases h127 : b = 127
    · rw [if_pos h127] at h
      split at h <;>
        (simp only [pure, Except.pure, Except.ok.injEq, Prod.mk.injEq] at h
         obtain ⟨-, -, rfl⟩ := h
         cases hs)
    · rw [if_neg h127] at h
      by_cases hlt : len g.input < len g.word
      · rw [if_pos hlt] at h
        cases ht : typeByte g b with
        | error f => rw [ht] at h; cases h
        | ok g1 =>
          rw [ht] at h
          simp only [bind, Except.bind, pure, Except.pure, Except.ok.injEq,
            Prod.mk.injEq] at h
          obtain ⟨-, -, hev⟩ := h
          have hw : g1.word = g.word := by
            unfold typeByte at ht
            cases hx : index (g.input ++ stringOfByte b)
                (len (g.input ++ stringOfByte b) - 1) with
            | error f => simp [hx, bind, Except.bind] at ht
            | ok x =>
              cases hy : index g.word (len (g.input ++ stringOfByte b) - 1) with
              | error f => simp [hx, hy, bind, Except.bind] at ht
              | ok y =>
                simp only [hx, hy, bind, Except.bind, pure, Except.pure,
                  Except.ok.injEq] at ht
                rw [← ht]
          have hpos : 0 < len g.word := by
            have : 0 ≤ len g.input := by simp [len]
            omega
          unfold finishRound at hev
          by_cases hfull : len g1.input = len g1.word
          · rw [if_pos hfull] at hev
            simp only at hev
            rw [← hev] at hs
            simp only [List.mem_singleton, Event.showResults.injEq] at hs
            have hacc : s.accuracy
                = 100 * ((len g.word - g1.mistakes : Int) : ℚ) / ((len g.word : Int) : ℚ) := by
              rw [hs, hw]
              simp only [accuracy]
              ring
            have hne : ((len g.word : Int) : ℚ) ≠ 0 := by
              have : len g.word ≠ 0 := by omega
              exact_mod_cast this
            refine ⟨g1, rfl, hw ▸ hfull, hpos, hacc, ?_, ?_⟩
            · intro hm
              rw [hacc, hm]
              simp only [sub_zero]
              field_simp
            · intro hm
              rw [hacc, hm]
              simp
          · rw [if_neg hfull] at hev
            simp only at hev
            rw [← hev] at hs
            cases hs
      · rw [if_neg hlt] at h
        simp only [pure, Except.pure, Except.ok.injEq, Prod.mk.injEq] at h
        obtain ⟨-, -, rfl⟩ := h
        cases hs

/-! ## Mistakes and the Hamming distance -/

/-- A call that returns true without showing results hands the rest of the
keystrokes to the new state. -/
theorem feed_cons_ok (e : Env) (b : Byte) (g g1 : Game) (ks : List (Env × Byte))
    (h : handleInput e g b = .ok (g1, true, [])) :
    feed g ((e, b) :: ks) = feed g1 ks := by
  simp only [feed, h]
  cases feed g1 ks with
  | error f => rfl
  | ok p => obtain ⟨g2, r, evs⟩ := p; rfl

/-- ASCII keystrokes that stop before the last position of the word are all
typed: the input grows by their bytes, the mistake count by the number of
positions at which they differ from the word, and no results are shown. -/
theorem feed_typing (ks : List (Env × Byte)) :
    ∀ g : Game,
      (∀ k ∈ ks, k.2.val < 128 ∧ k.2 ≠ 3 ∧ k.2 ≠ 127) →
      g.input.length + ks.length < g.word.length →
      feed g ks
        = .ok ({ g with
                  input := g.input ++ ks.map Prod.snd,
                  mistakes := g.mistakes
                    + (hamming (ks.map Prod.snd) (g.word.drop g.input.length) : Nat) },
               true, []) := by
  induction ks with
  | nil =>
    intro g _ _
    cases g
    simp [feed, hamming]
  | cons k ks ih =>
    intro g hk hlen
    obtain ⟨e, b⟩ := k
    have hb := hk (e, b) (List.mem_cons_self _ _)
    simp only [List.length_cons] at hlen
    obtain ⟨y, hy, hdrop⟩ := word_get?_of_lt g (by omega)
    have hmid := handleInput_ascii_mid e g b y hb.1 hb.2.1 hb.2.2 (by omega) hy
    have hrest := ih
      { g with input := g.input ++ [b],
               mistakes := if b ≠ y then g.mistakes + 1 else g.mistakes }
      (fun k hmem => hk k (List.mem_cons_of_mem _ hmem))
      (by simp only [List.length_append, List.length_singleton]; omega)
    simp only [feed, hmid, hrest, List.length_append, List.length_singleton, hdrop,
      List.map_cons, hamming_cons, List.append_assoc, List.singleton_append,
      List.nil_append]
    congr 3
    by_cases hby : b = y
    · simp [hby]
    · simp [hby]
      ring

/-- ASCII keystrokes that end exactly at the last position of the word: the
last one completes the round, and the accuracy shown is computed from the
number of positions at which the keystrokes differ from the word. -/
theorem feed_completing (ks : List (Env × Byte)) :
    ∀ (g : Game) (e : Env) (b : Byte),
      (∀ k ∈ ks, k.2.val < 128 ∧ k.2 ≠ 3 ∧ k.2 ≠ 127) →
      (b.val < 128 ∧ b ≠ 3 ∧ b ≠ 127) →
      g.input.length + ks.length + 1 = g.word.length →
      feed g (ks ++ [(e, b)])
        = .ok ({ g with word := words.get e.rnd, input := [], mistakes := 0,
                        startTime := e.nowClock },
               true,
               [Event.showResults
                 { duration := e.sinceClock - g.startTime
                   accuracy := accuracy (len g.word)
                     (g.mistakes
                       + (hamming ((ks ++ [(e, b)]).map Prod.snd)
                           (g.word.drop g.input.length) : Nat))
                   wpm := wpm (len g.word) (e.sinceClock - g.startTime) }]) := by
  induction ks with
  | nil =>
    intro g e b _ hb hlen
    simp only [List.length_nil, Nat.add_zero] at hlen
    obtain ⟨y, hy, hdrop⟩ := word_get?_of_lt g (by omega)
    have hlast := handleInput_ascii_last e g b y hb.1 hb.2.1 hb.2.2 hlen hy
    simp only [List.nil_append, feed, hlast, hdrop, List.map_cons, List.map_nil,
      hamming_cons, List.append_nil]
    congr 6
    by_cases hby : b = y
    · simp [hby, hamming]
    · simp [hby, hamming]
  | cons k ks ih =>
    intro g e b hk hb hlen
    obtain ⟨e1, b1⟩ := k
    have hb1 := hk (e1, b1) (List.mem_cons_self _ _)
    simp only [List.length_cons] at hlen
    obtain ⟨y, hy, hdrop⟩ := word_get?_of_lt g (by omega)
    have hmid := handleInput_ascii_mid e1 g b1 y hb1.1 hb1.2.1 hb1.2.2 (by omega) hy
    have hrest := ih
      { g with input := g.input ++ [b1],
               mistakes := if b1 ≠ y then g.mistakes + 1 else g.mistakes } e b
      (fun k hmem => hk k (List.mem_cons_of_mem _ hmem)) hb
      (by simp only [List.length_append, List.length_singleton]; omega)
    have hval :
        (if b1 ≠ y then g.mistakes + 1 else g.mistakes)
            + (hamming ((ks ++ [(e, b)]).map Prod.snd)
                (g.word.drop (g.input.length + 1)) : Nat)
          = g.mistakes
            + (hamming (((e1, b1) :: ks ++ [(e, b)]).map Prod.snd)
                (g.word.drop g.input.length) : Nat) := by
      rw [hdrop]
      simp only [List.cons_append, List.map_cons, hamming_cons]
      by_cases hby : b1 = y
      · simp [hby]
      · simp [hby]
        ring
    dsimp only at hrest
    simp only [List.length_append, List.length_singleton] at hrest
    rw [hval] at hrest
    rw [List.cons_append, feed_cons_ok e1 b1 g _ _ hmid, hrest]
    rfl

/-- Counting the differing positions after one more byte has been typed. -/
theorem hamming_concat (a : List Byte) :
    ∀ (w : List Byte) (x y : Byte), w.get? a.length = some y →
      hamming (a ++ [x]) w = hamming a w + (if x ≠ y then 1 else 0) := by
  induction a with
  | nil =>
    intro w x y hy
    cases w with
    | nil => simp at hy
    | cons d w =>
      simp only [List.length_nil, List.get?_cons_zero, Option.some.injEq] at hy
      subst hy
      rw [List.nil_append, hamming_cons]
      simp [hamming]
  | cons c a ih =>
    intro w x y hy
    cases w with
    | nil => simp at hy
    | cons d w =>
      simp only [List.length_cons, List.get?_cons_succ] at hy
      rw [List.cons_append, hamming_cons, hamming_cons, ih w x y hy]
      omega

/-- C2: for a non-empty word, feeding as many ASCII bytes (none of them 3 or
127) as the word has bytes to `handleInput` from a fresh round types every
proper initial segment without completing the round, the mistake count being
the number of differing positions so far; the last byte completes the round,
the mistake count at that moment is the Hamming distance between the bytes and
the word, and it is the count the accuracy passed to `showResults` is
computed from. -/
theorem mistakes_eq_hamming (g : Game) (ks : List (Env × Byte))
    (hin : g.input = []) (hm : g.mistakes = 0) (hne : g.word ≠ [])
    (hlen : ks.length = g.word.length)
    (hk : ∀ k ∈ ks, k.2.val < 128 ∧ k.2 ≠ 3 ∧ k.2 ≠ 127) :
    (∀ j, j < ks.length →
        feed g (ks.take j)
          = .ok ({ g with
                    input := (ks.take j).map Prod.snd,
                    mistakes := (hamming ((ks.take j).map Prod.snd) g.word : Nat) },
                 true, []))
    ∧ ∃ (e : Env) (b : Byte) (g1 g2 : Game),
        ks = ks.dropLast ++ [(e, b)]
        ∧ feed g ks.dropLast = .ok (g1, true, [])
        ∧ typeByte g1 b = .ok g2
        ∧ len g2.input = len g.word
        ∧ g2.mistakes = (hamming (ks.map Prod.snd) g.word : Nat)
        ∧ feed g ks
          = .ok ({ g with word := words.get e.rnd, input := [], mistakes := 0,
                          startTime := e.nowClock },
                 true,
                 [Event.showResults
                   { duration := e.sinceClock - g.startTime
                     accuracy := accuracy (len g.word)
                       (hamming (ks.map Prod.snd) g.word : Nat)
                     wpm := wpm (len g.word) (e.sinceClock - g.startTime) }]) := by
  have hwpos : 0 < g.word.length := List.length_pos.mpr hne
  constructor
  · intro j hj
    have h := feed_typing (ks.take j) g
      (fun k hmem => hk k (List.mem_of_mem_take hmem))
      (by simp only [hin, List.length_nil, List.length_take]; omega)
    rw [h]
    simp only [hin, hm, List.nil_append, List.length_nil, List.drop_zero, zero_add]
  · have hks : ks ≠ [] := by
      intro h0
      rw [h0] at hlen
      simp at hlen
      omega
    have hsplit : ks = ks.dropLast ++ [ks.getLast hks] :=
      (List.dropLast_append_getLast hks).symm
    have hinit : ∀ k ∈ ks.dropLast, k.2.val < 128 ∧ k.2 ≠ 3 ∧ k.2 ≠ 127 :=
      fun k hmem => hk k (List.dropLast_subset ks hmem)
    have hlastk := hk (ks.getLast hks) (List.getLast_mem hks)
    have hdl : ks.dropLast.length + 1 = g.word.length := by
      rw [List.length_dropLast]
      have : 0 < ks.length := List.length_pos.mpr hks
      omega
    have htyping := feed_typing ks.dropLast g hinit
      (by simp only [hin, List.length_nil]; omega)
    simp only [hin, hm, List.nil_append, List.length_nil, List.drop_zero, zero_add]
      at htyping
    have hcompl := feed_completing ks.dropLast g (ks.getLast hks).1 (ks.getLast hks).2
      hinit hlastk (by simp only [hin, List.length_nil]; omega)
    rw [← hsplit] at hcompl
    simp only [hin, hm, List.length_nil, List.drop_zero, zero_add] at hcompl
    have hy : ∃ y, g.word.get? (ks.dropLast.map Prod.snd).length = some y := by
      have hlt : (ks.dropLast.map Prod.snd).length < g.word.length := by
        rw [List.length_map]; omega
      exact ⟨g.word.get ⟨_, hlt⟩, List.get?_eq_get hlt⟩
    obtain ⟨y, hy⟩ := hy
    have hbytes : ks.map Prod.snd = ks.dropLast.map Prod.snd ++ [(ks.getLast hks).2] := by
      conv_lhs => rw [hsplit]
      simp
    refine ⟨(ks.getLast hks).1, (ks.getLast hks).2, _, _, hsplit, htyping,
      typeByte_ascii _ _ y hlastk.1 hy, ?_, ?_, hcompl⟩
    · simp only [len, List.length_append, List.length_map, List.length_singleton]
      omega
    · rw [hbytes, hamming_concat _ _ _ y hy]
      by_cases hby : (ks.getLast hks).2 = y
      · simp [hby]
      · simp [hby]

/-! ## Instances on the word "cat" -/

/-- The word "cat" typed as 'c', 'x', 't' from a fresh round: the mistake
counts are 0, 1, 1 and the accuracy is `100 * (3 - 1) / 3`. -/
theorem mistakes_eq_hamming_witness :
    catRound.input = [] ∧ catRound.mistakes = 0 ∧ catRound.word ≠ []
    ∧ (keysOf sampleEnv "cxt").length = catRound.word.length
    ∧ (∀ k ∈ keysOf sampleEnv "cxt", k.2.val < 128 ∧ k.2 ≠ 3 ∧ k.2 ≠ 127)
    ∧ hamming (bytesOf "c") (bytesOf "cat") = 0
    ∧ hamming (bytesOf "cx") (bytesOf "cat") = 1
    ∧ hamming (bytesOf "cxt") (bytesOf "cat") = 1
    ∧ accuracy 3 1 = 100 * (3 - 1) / 3
    ∧ ((∀ j, j < (keysOf sampleEnv "cxt").length →
          feed catRound ((keysOf sampleEnv "cxt").take j)
            = .ok ({ catRound with
                      input := ((keysOf sampleEnv "cxt").take j).map Prod.snd,
                      mistakes :=
                        (hamming (((keysOf sampleEnv "cxt").take j).map Prod.snd)
                          catRound.word : Nat) },
                   true, []))
      ∧ ∃ (e : Env) (b : Byte) (g1 g2 : Game),
          keysOf sampleEnv "cxt" = (keysOf sampleEnv "cxt").dropLast ++ [(e, b)]
          ∧ feed catRound (keysOf sampleEnv "cxt").dropLast = .ok (g1, true, [])
          ∧ typeByte g1 b = .ok g2
          ∧ len g2.input = len catRound.word
          ∧ g2.mistakes
              = (hamming ((keysOf sampleEnv "cxt").map Prod.snd) catRound.word : Nat)
          ∧ feed catRound (keysOf sampleEnv "cxt")
            = .ok ({ catRound with word := words.get e.rnd, input := [], mistakes := 0,
                                   startTime := e.nowClock },
                   true,
                   [Event.showResults
                     { duration := e.sinceClock - catRound.startTime
                       accuracy := accuracy (len catRound.word)
                         (hamming ((keysOf sampleEnv "cxt").map Prod.snd)
                           catRound.word : Nat)
                       wpm := wpm (len catRound.word)
                         (e.sinceClock - catRound.startTime) }])) :=
  ⟨rfl, rfl, by decide, rfl, by decide, by decide, by decide, by decide,
    by norm_num [accuracy],
    mistakes_eq_hamming catRound (keysOf sampleEnv "cxt") rfl rfl (by decide) rfl
      (by decide)⟩

/-- The word "cat" with input "ca" and the byte 't': the results are shown
once and a new round starts. -/
theorem round_reset_on_completion_witness :
    len catRoundCa.input = len catRoundCa.word - 1
    ∧ (116 : Byte).val < 128 ∧ (116 : Byte) ≠ 3 ∧ (116 : Byte) ≠ 127
    ∧ ∃ (g1 : Game) (s : Stats),
        handleInput sampleEnv catRoundCa 116 = .ok (g1, true, [Event.showResults s])
        ∧ g1.input = [] ∧ g1.mistakes = 0 ∧ g1.word ∈ words
        ∧ g1.width = catRoundCa.width ∧ g1.height = catRoundCa.height
        ∧ g1.done = catRoundCa.done
        ∧ g1 = { catRoundCa with word := words.get sampleEnv.rnd, input := [],
                                 mistakes := 0, startTime := sampleEnv.nowClock } :=
  ⟨by decide, by decide, by decide, by decide,
    round_reset_on_completion sampleEnv catRoundCa 116 (by decide) (by decide)
      (by decide) (by decide)⟩

/-- The word "cat" with input "ca", no mistakes, and the byte 't': the call
shows results with accuracy 100. -/
theorem accuracy_at_completion_witness :
    handleInput sampleEnv catRoundCa 116
      = .ok (freshRound (bytesOf "Hello World") 5000000001 80 24, true,
          [Event.showResults
            { duration := 5000000000, accuracy := accuracy 3 0,
              wpm := wpm 3 5000000000 }])
    ∧ Event.showResults
          { duration := 5000000000, accuracy := accuracy 3 0, wpm := wpm 3 5000000000 }
        ∈ [Event.showResults
            { duration := 5000000000, accuracy := accuracy 3 0,
              wpm := wpm 3 5000000000 }]
    ∧ ∃ g1 : Game,
        typeByte catRoundCa 116 = .ok g1
        ∧ len g1.input = len catRoundCa.word
        ∧ 0 < len catRoundCa.word
        ∧ accuracy 3 0
            = 100 * ((len catRoundCa.word - g1.mistakes : Int) : ℚ)
                / ((len catRoundCa.word : Int) : ℚ)
        ∧ (g1.mistakes = 0 → accuracy 3 0 = 100)
        ∧ (g1.mistakes = len catRoundCa.word → accuracy 3 0 = 0) :=
  ⟨rfl, List.mem_singleton.mpr rfl,
    accuracy_at_completion sampleEnv catRoundCa
      (freshRound (bytesOf "Hello World") 5000000001 80 24) 116 true
      [Event.showResults
        { duration := 5000000000, accuracy := accuracy 3 0, wpm := wpm 3 5000000000 }]
      { duration := 5000000000, accuracy := accuracy 3 0, wpm := wpm 3 5000000000 }
      rfl (List.mem_singleton.mpr rfl)⟩

end TypingGame
